import Mathlib

/-!
Verification development for the `create-context` repository-to-text
flattener (`src/main.rs`).  Paths are modelled as lists of normal
components (`List String`); file contents as `String` (logically a list
of characters, matching the byte-exact, UTF-8-correct scanning the Rust
code performs).  External collaborators (the filesystem, the
ignore-aware `WalkBuilder`, the `glob` crate's compiled patterns, and
`fs::canonicalize`) are modelled as record fields supplying their
observable outputs at the interface boundary.
-/

namespace CreateContext

/-- A filesystem path, as its sequence of normal components.
`Path` ordering in Rust (`PathBuf: Ord`) is lexicographic over
components, each component compared bytewise. -/
abbrev FilePath := List String

/-- Bytewise (codepoint) comparison of character lists; UTF-8 byte order
coincides with codepoint order, so this models Rust `str::cmp`. -/
def charListLt : List Char → List Char → Bool
  | [], [] => false
  | [], _ :: _ => true
  | _ :: _, [] => false
  | a :: as, b :: bs => if a = b then charListLt as bs else decide (a < b)

/-- Rust `str` `<=` (bytewise lexicographic). -/
def strLe (a b : String) : Bool := a == b || charListLt a.data b.data

/-- Rust `str::starts_with`. -/
def strStarts (s pat : String) : Bool := pat.data.isPrefixOf s.data

/-- Rust `str::ends_with`. -/
def strEnds (s pat : String) : Bool := pat.data.isSuffixOf s.data

/-- `PathBuf: Ord` — lexicographic over components, components bytewise. -/
def pathLe : FilePath → FilePath → Bool
  | [], _ => true
  | _ :: _, [] => false
  | a :: as, b :: bs => if a = b then pathLe as bs else charListLt a.data b.data

/-- Display / `to_string_lossy` form of a path: components joined by the
separator.  Used as the sort key for rendered chunks. -/
def pathStr (p : FilePath) : String := String.intercalate "/" p

/-- `Path::file_name` for a path of normal components. -/
def fileName (p : FilePath) : Option String := p.getLast?

/-- Index (from the start) of the last `.` of a character list, if any. -/
def lastDotIdx : List Char → Option Nat
  | [] => none
  | c :: t =>
    match lastDotIdx t with
    | some k => some (k + 1)
    | none => if c = '.' then some 0 else none

/-- Rust `Path::extension` applied to a file name: the part after the
final `.`, except that a lone leading `.` (as in `.gitignore`) does not
begin an extension. -/
def rustExtension (name : String) : Option String :=
  let cs := if name.data.headI = '.' then name.data.tail else name.data
  match lastDotIdx cs with
  | some k => some (String.mk (cs.drop (k + 1)))
  | none => none

/-- `determine_language` (src/main.rs:51-108): exact-filename table first,
then the extension table, else the empty tag. -/
def filenameLanguage (name : String) : Option String :=
  if name = "Makefile" then some "make"
  else if name = "CMakeLists.txt" then some "cmake"
  else if name = "Dockerfile" then some "docker"
  else if name = ".gitignore" then some "git"
  else if name = "build.gradle" then some "gradle"
  else if name = "Cargo.toml" then some "rust"
  else if name = "package.json" then some "node"
  else none

def extensionLanguage (ext : String) : Option String :=
  if ext = "rs" then some "rust"
  else if ext = "zig" then some "zig"
  else if ext = "zon" then some "zig"
  else if ext = "go" then some "go"
  else if ext = "py" then some "python"
  else if ext = "cpp" then some "cpp"
  else if ext = "cc" then some "cpp"
  else if ext = "cxx" then some "cpp"
  else if ext = "hpp" then some "cpp"
  else if ext = "hh" then some "cpp"
  else if ext = "hxx" then some "cpp"
  else if ext = "c" then some "c"
  else if ext = "h" then some "c"
  else if ext = "cu" then some "cuda"
  else if ext = "cuh" then some "cuda"
  else if ext = "js" then some "javascript"
  else if ext = "ts" then some "typescript"
  else if ext = "toml" then some "toml"
  else if ext = "yaml" then some "yaml"
  else if ext = "yml" then some "yaml"
  else if ext = "json" then some "json"
  else if ext = "txt" then some "txt"
  else if ext = "sh" then some "bash"
  else if ext = "md" then some "markdown"
  else if ext = "proto" then some "protobuf"
  else if ext = "cmake" then some "cmake"
  else if ext = "html" then some "html"
  else if ext = "css" then some "css"
  else none

def determine_language (p : FilePath) : String :=
  match fileName p with
  | some name =>
    match filenameLanguage name with
    | some lang => lang
    | none =>
      match rustExtension name with
      | some ext =>
        match extensionLanguage ext with
        | some lang => lang
        | none => ""
      | none => ""
  | none => ""

/-- `comment_syntax` (src/main.rs:110-123). -/
def comment_syntax (language : String) : String × Option String :=
  if language = "rust" || language = "cpp" || language = "c" || language = "go" ||
     language = "javascript" || language = "typescript" || language = "java" ||
     language = "swift" || language = "kotlin" then ("//", none)
  else if language = "python" || language = "bash" || language = "sh" ||
     language = "yaml" || language = "yml" || language = "toml" || language = "make" then ("#", none)
  else if language = "lua" then ("--", none)
  else if language = "html" || language = "xml" then ("<!--", some "-->")
  else if language = "css" || language = "scss" then ("/*", some "*/")
  else if language = "json" || language = "protobuf" then ("//", none)
  else if language = "markdown" then ("<!--", some "-->")
  else ("//", none)

/-- `is_lock_file` (src/main.rs:125-135). -/
def is_lock_file (path : FilePath) : Bool :=
  match fileName path with
  | some name =>
    strEnds name ".lock" || name == "Cargo.lock" || name == "package-lock.json" ||
      name == "yarn.lock" || name == "Pipfile.lock" || name == "poetry.lock"
  | none => false

/-- A directory entry yielded by the ignore-aware walker (the `ignore`
crate's `WalkBuilder`, an external collaborator): either an entry with
its path and file type, or a per-entry read error. -/
inductive WalkResult where
  | ok (path : FilePath) (isFile : Bool)
  | err
deriving DecidableEq

/-- The observable outputs of the external collaborators: the live
filesystem, `fs::canonicalize`, `fs::read_to_string`, and the
ignore-aware walk. -/
structure FS where
  /-- `fs::canonicalize`: the canonical absolute path when the path
  exists, `none` (an `io::Error`) otherwise. -/
  canon : FilePath → Option FilePath
  /-- `Path::exists`. -/
  pathExists : FilePath → Bool
  /-- `Path::is_file`. -/
  isFile : FilePath → Bool
  /-- `fs::read_to_string`: `none` on unreadable or non-UTF-8 content. -/
  read : FilePath → Option String
  /-- `WalkBuilder::new(dir)` with standard filters and link following:
  the sequence of results it yields for a given starting directory. -/
  walk : FilePath → List WalkResult

/-- `Path::parent().unwrap_or(base_dir)`. -/
def parentDir (base_dir : FilePath) (p : FilePath) : FilePath :=
  match p with
  | [] => base_dir
  | _ :: _ => p.dropLast

/-- `is_ignored_by_gitignore` (src/main.rs:155-168): walk the parent with
standard ignore filters; the file is ignored unless that walk surfaces it
by exact path match (errors are flattened away). -/
def is_ignored_by_gitignore (fs : FS) (base_dir : FilePath) (file_path : FilePath) : Bool :=
  let parent := parentDir base_dir file_path
  !((fs.walk parent).any fun r =>
      match r with
      | .ok p _ => p == file_path
      | .err => false)

/-- `is_excluded` (src/main.rs:137-153): lock-file rule, then the
hidden-component rule over every normal component of the path, then the
gitignore re-walk. -/
def is_excluded (fs : FS) (path : FilePath) (base_dir : FilePath) : Bool :=
  if is_lock_file path then true
  else if path.any (fun part => strStarts part ".") then true
  else is_ignored_by_gitignore fs base_dir path

/-- `is_rust_test_file` (src/main.rs:267-285). -/
def is_rust_test_file (path : FilePath) : Bool :=
  match fileName path with
  | some name =>
    match rustExtension name with
    | some ext =>
      if ext = "rs" then
        if strEnds name "_test.rs" || name == "tests.rs" then true
        else path.any (fun part => part == "tests")
      else false
    | none => false
  | none => false

/-- Rust `str::find(pat)`: index of the first occurrence of `pat`. -/
def findSub : List Char → List Char → Option Nat
  | [], pat => if pat.isPrefixOf [] then some 0 else none
  | a :: t, pat =>
    if pat.isPrefixOf (a :: t) then some 0
    else (findSub t pat).map (· + 1)

/-- Rust `str::find(c)` for a single character. -/
def findChar : List Char → Char → Option Nat
  | [], _ => none
  | a :: t, c => if a = c then some 0 else (findChar t c).map (· + 1)

/-- The test-configuration marker scanned for by `strip_rust_tests`. -/
def marker : List Char := "#[cfg(test)]".data

/-- The test-module declaration scanned for by `strip_rust_tests`. -/
def modTests : List Char := "mod tests".data

/-- The region shape `strip_rust_tests` removes from: the marker, then
`mid`, then `mod tests`, then `mid2`, then the opening brace, then
`rest`. -/
def testBlock (mid mid2 rest : List Char) : List Char :=
  marker ++ mid ++ modTests ++ mid2 ++ '{' :: rest

/-- The inner brace-matching scan of `strip_rust_tests`
(src/main.rs:300-316): from position `j` with current nesting `depth`,
advance until the depth would reach zero, returning the position just
past the matching closing brace (or the end of input). -/
def scanMatch (s : List Char) (j : Nat) (depth : Nat) : Nat :=
  if h : j < s.length then
    let ch := s.get ⟨j, h⟩
    if ch = '{' then scanMatch s (j + 1) (depth + 1)
    else if ch = '}' then
      if depth = 1 then j + 1
      else scanMatch s (j + 1) (depth - 1)
    else scanMatch s (j + 1) depth
  else j
termination_by s.length - j

/-- The brace-matching scan as a structural function of the suffix being
scanned: the number of characters it consumes. -/
def scanLen : List Char → Nat → Nat
  | [], _ => 0
  | c :: t, depth =>
    if c = '{' then 1 + scanLen t (depth + 1)
    else if c = '}' then
      if depth = 1 then 1 else 1 + scanLen t (depth - 1)
    else 1 + scanLen t depth

theorem scanMatch_eq_scanLen (s : List Char) (j depth : Nat) :
    scanMatch s j depth = j + scanLen (s.drop j) depth := by
  have H : ∀ n j depth, s.length - j ≤ n →
      scanMatch s j depth = j + scanLen (s.drop j) depth := by
    intro n
    induction n with
    | zero =>
      intro j depth hle
      rw [scanMatch, List.drop_eq_nil_of_le (by omega)]
      simp only [scanLen]
      rw [dif_neg (by omega)]
      omega
    | succ n ih =>
      intro j depth hle
      by_cases h : j < s.length
      · rw [scanMatch, List.drop_eq_getElem_cons h]
        simp only [dif_pos h, scanLen, List.get_eq_getElem]
        by_cases h1 : s[j] = '{'
        · rw [if_pos h1, if_pos h1, ih (j + 1) (depth + 1) (by omega)]
          omega
        · by_cases h2 : s[j] = '}'
          · rw [if_neg h1, if_neg h1, if_pos h2, if_pos h2]
            by_cases h3 : depth = 1
            · rw [if_pos h3, if_pos h3]
            · rw [if_neg h3, if_neg h3, ih (j + 1) (depth - 1) (by omega)]
              omega
          · rw [if_neg h1, if_neg h1, if_neg h2, if_neg h2,
              ih (j + 1) depth (by omega)]
            omega
      · rw [scanMatch, List.drop_eq_nil_of_le (by omega)]
        simp only [scanLen]
        rw [dif_neg h]
        omega
  exact H s.length j depth (by omega)

theorem le_scanMatch (s : List Char) (j depth : Nat) : j ≤ scanMatch s j depth := by
  rw [scanMatch_eq_scanLen]
  omega

theorem scanLen_le_length (t : List Char) (depth : Nat) : scanLen t depth ≤ t.length := by
  induction t generalizing depth with
  | nil => simp [scanLen]
  | cons c t ih =>
    simp only [scanLen, List.length_cons]
    split
    · have := ih (depth + 1); omega
    · split
      · split
        · omega
        · have := ih (depth - 1); omega
      · have := ih depth; omega

theorem scanMatch_le_length (s : List Char) (j depth : Nat) (h : j ≤ s.length) :
    scanMatch s j depth ≤ s.length := by
  rw [scanMatch_eq_scanLen]
  have := scanLen_le_length (s.drop j) depth
  simp only [List.length_drop] at this
  omega

/-- The main scanning loop of `strip_rust_tests` (src/main.rs:289-334):
walks the input from index `i`, copying characters into `acc`, removing
each `#[cfg(test)] … mod tests { … }` region, and returning the
accumulated output together with the final index. -/
def stripLoop (s : List Char) (i : Nat) (acc : List Char) : List Char × Nat :=
  if h : i < s.length then
    if marker.isPrefixOf (s.drop i) then
      match findSub (s.drop i) modTests with
      | some mod_pos =>
        match findChar (s.drop (i + mod_pos)) '{' with
        | some brace_offset =>
          stripLoop s (scanMatch s (i + mod_pos + brace_offset + 1) 1) acc
        | none => stripLoop s (i + marker.length) acc
      | none => stripLoop s (i + marker.length) acc
    else stripLoop s (i + 1) (acc ++ [s.get ⟨i, h⟩])
  else (acc, i)
termination_by s.length - i
decreasing_by
  all_goals
    first
      | · have := le_scanMatch s (i + mod_pos + brace_offset + 1) 1
          omega
      | · have hm : marker.length = 12 := rfl
          omega

/-- `strip_rust_tests` (src/main.rs:288-340), at the character level: run
the scan loop from index 0, then append the remainder past the final
index, if any. -/
def strip_rust_tests (s : List Char) : List Char :=
  let r := stripLoop s 0 []
  if r.2 < s.length then r.1 ++ s.drop r.2 else r.1

/-- `strip_rust_tests` lifted to `String` as used by `process_file`. -/
def stripRustTestsStr (s : String) : String := String.mk (strip_rust_tests s.data)

/-- `process_file` (src/main.rs:342-366): read the file, determine its
language tag and comment syntax, optionally strip Rust test modules, and
build the fenced block, keyed by the display path. -/
def process_file (fs : FS) (file_path : FilePath) (ignore_tests : Bool) :
    Option (String × String) :=
  match fs.read file_path with
  | none => none
  | some c =>
    let language := determine_language file_path
    let content := if ignore_tests && language == "rust" then stripRustTestsStr c else c
    let cs := comment_syntax language
    let buf := "```" ++ language ++ "\n"
    let buf := buf ++
      (match cs.2 with
       | some e => cs.1 ++ " " ++ pathStr file_path ++ " " ++ e ++ "\n"
       | none => cs.1 ++ " " ++ pathStr file_path ++ "\n")
    let buf := buf ++ content
    let buf := buf ++ "```" ++ "\n"
    let buf := buf ++ "\n"
    some (pathStr file_path, buf)

/-- The header comment line `process_file` writes: the display path
wrapped in the language's comment syntax (prefix only, or prefix and
suffix), ending in a newline. -/
def headerLine (p : FilePath) : String :=
  let cs := comment_syntax (determine_language p)
  match cs.2 with
  | some e => cs.1 ++ " " ++ pathStr p ++ " " ++ e ++ "\n"
  | none => cs.1 ++ " " ++ pathStr p ++ "\n"

/-- The content `process_file` embeds between header and closing fence:
the raw text, after the optional Rust test stripping. -/
def embeddedContent (p : FilePath) (ig : Bool) (c : String) : String :=
  if ig && determine_language p == "rust" then stripRustTestsStr c else c

/-- A command-line glob pattern as the `glob` crate sees it:
whether `Pattern::new` succeeds, and the compiled matcher's verdict on
each relative path string. -/
structure RawPattern where
  valid : Bool
  accepts : String → Bool

/-- The configuration values handed over by the CLI layer. -/
structure Config where
  dir : FilePath
  patterns : List RawPattern
  files : List FilePath
  no_tree : Bool
  parallel : Bool
  count_tokens : Bool
  ignore_tests : Bool

/-- A selection outcome: the matched files in discovery order, plus the
number of diagnostic warnings written to the error stream. -/
structure SelOutcome where
  selected : List FilePath
  warnings : Nat
deriving DecidableEq

/-- Explicit-file mode of `main` (src/main.rs:379-397).  Each listed file
is joined to the root and canonicalized; `canonicalize()?` propagates an
`io::Error` (modelled as `Except.error`) when canonicalization fails.
Surviving paths are checked for regular-file-ness (warn and skip),
exclusion and, under `--ignore-tests`, Rust-test-file-ness (silent skip). -/
def selectExplicit (fs : FS) (dir : FilePath) (files : List FilePath)
    (ignore : Bool) : Except Unit SelOutcome :=
  files.foldlM
    (fun acc file =>
      match fs.canon (dir ++ file) with
      | none => .error ()
      | some full_path =>
        if !(fs.pathExists full_path) || !(fs.isFile full_path) then
          .ok { acc with warnings := acc.warnings + 1 }
        else if is_excluded fs full_path dir then .ok acc
        else if ignore && is_rust_test_file full_path then .ok acc
        else .ok { acc with selected := acc.selected ++ [full_path] })
    { selected := [], warnings := 0 }

/-- One step of the glob-mode walk loop (src/main.rs:411-439). -/
def globStep (fs : FS) (dir : FilePath) (patterns : List (String → Bool))
    (ignore : Bool) (acc : SelOutcome) (r : WalkResult) : SelOutcome :=
  match r with
  | .err => { acc with warnings := acc.warnings + 1 }
  | .ok path isFile =>
    if isFile && !(is_excluded fs path dir) then
      if ignore && is_rust_test_file path then acc
      else
        let relative_path := if dir.isPrefixOf path then path.drop dir.length else path
        if patterns.any (fun pat => pat (pathStr relative_path)) then
          { acc with selected := acc.selected ++ [path] }
        else acc
    else acc

/-- Glob mode of `main` (src/main.rs:398-440): compile the patterns,
warning about and dropping each invalid one, then walk the root and keep
every non-excluded regular file whose relative path matches some
pattern. -/
def selectGlob (fs : FS) (dir : FilePath) (raws : List RawPattern)
    (ignore : Bool) : SelOutcome :=
  let patterns := raws.filterMap (fun p => if p.valid then some p.accepts else none)
  let patWarnings := (raws.filter (fun p => !p.valid)).length
  (fs.walk dir).foldl (globStep fs dir patterns ignore)
    { selected := [], warnings := patWarnings }

/-- The mode dispatch of `main` (src/main.rs:379 and 398). -/
def runSelection (fs : FS) (cfg : Config) : Except Unit SelOutcome :=
  if !cfg.files.isEmpty then selectExplicit fs cfg.dir cfg.files cfg.ignore_tests
  else .ok (selectGlob fs cfg.dir cfg.patterns cfg.ignore_tests)

/-- Stable insertion of an element after all existing elements that
compare at-or-before it. -/
def insertLe (le : α → α → Bool) (a : α) : List α → List α
  | [] => [a]
  | b :: t => if le b a then b :: insertLe le a t else a :: b :: t

/-- A stable sort, modelling the contract of Rust's `sort` / `sort_by`
(a stable comparison sort). -/
def stableSort (le : α → α → Bool) (l : List α) : List α :=
  l.foldl (fun acc a => insertLe le a acc) []

/-- `matched_files.sort()` (src/main.rs:442): `PathBuf` order. -/
def sortPaths (l : List FilePath) : List FilePath := stableSort pathLe l

/-- `outputs.sort_by(|a, b| a.0.cmp(&b.0))` (src/main.rs:462). -/
def sortByKey (l : List (String × String)) : List (String × String) :=
  stableSort (fun a b => strLe a.1 b.1) l

/-- The selection as it stands just before content formatting: the mode's
matched files, sorted (src/main.rs:442). -/
def finalSelection (fs : FS) (cfg : Config) : Except Unit (List FilePath) :=
  (runSelection fs cfg).map (fun o => sortPaths o.selected)

/-- The sequential rendering stage (src/main.rs:454-459): format each
selected file, silently dropping unreadable ones. -/
def renderOutputs (fs : FS) (ignore : Bool) (matched : List FilePath) :
    List (String × String) :=
  matched.filterMap (fun p => process_file fs p ignore)

/-- Concatenation of the re-sorted chunks into the final buffer
(src/main.rs:461-467). -/
def concatChunks (outs : List (String × String)) : String :=
  String.join ((sortByKey outs).map Prod.snd)

/-- The whole run's final output buffer (tree rendering and token
counting aside): selection, sort, sequential formatting, re-sort by key,
concatenation.  `Except.error` models `main` returning `Err` (a nonzero
process exit). -/
def finalOutput (fs : FS) (cfg : Config) : Except Unit String :=
  (finalSelection fs cfg).map (fun sel => concatChunks (renderOutputs fs cfg.ignore_tests sel))

/-! ### Concrete collaborator records and configurations -/

/-- An empty-filesystem collaborator record: nothing exists, nothing can
be read, canonicalization always fails, walks yield nothing. -/
def fs0 : FS :=
  { canon := fun _ => none, pathExists := fun _ => false, isFile := fun _ => false,
    read := fun _ => none, walk := fun _ => [] }

/-- The spec scenario's configuration: explicit-file mode listing only
the nonexistent `missing.txt`. -/
def cfgMissing : Config :=
  { dir := ["root"], patterns := [], files := [["missing.txt"]],
    no_tree := false, parallel := false, count_tokens := false, ignore_tests := false }

/-- A glob pattern whose compilation fails. -/
def invalidPattern : RawPattern := { valid := false, accepts := fun _ => true }

/-- A filesystem containing the single regular file `root/a.go`. -/
def fsOneGo : FS :=
  { canon := fun p => some p, pathExists := fun _ => true, isFile := fun _ => true,
    read := fun _ => some "package main\n",
    walk := fun d => if d = ["root"] then [.ok ["root", "a.go"] true] else [] }

/-- Glob mode configured with exactly one pattern, which is invalid. -/
def cfgSingleInvalid : Config :=
  { dir := ["root"], patterns := [invalidPattern], files := [],
    no_tree := false, parallel := false, count_tokens := false, ignore_tests := false }

/-- Regular files `r/a.txt`, `r/a-b` and `r/a/b`, each surfaced by its
parent directory's ignore-aware walk. -/
def fsDup : FS :=
  { canon := fun p => some p, pathExists := fun _ => true, isFile := fun _ => true,
    read := fun _ => some "x",
    walk := fun d =>
      if d = ["r"] then [.ok ["r", "a.txt"] true, .ok ["r", "a-b"] true]
      else if d = ["r", "a"] then [.ok ["r", "a", "b"] true]
      else [] }

/-- Explicit-file mode listing the same file twice. -/
def cfgListedTwice : Config :=
  { dir := ["r"], patterns := [], files := [["a.txt"], ["a.txt"]],
    no_tree := false, parallel := false, count_tokens := false, ignore_tests := false }

/-- Explicit-file mode listing `a/b` and then `a-b`. -/
def cfgTwoFiles : Config :=
  { dir := ["r"], patterns := [], files := [["a", "b"], ["a-b"]],
    no_tree := false, parallel := false, count_tokens := false, ignore_tests := false }

/-- A filesystem whose ignore-aware walk over `.cfg/proj` surfaces
`.cfg/proj/b.txt`, so the gitignore re-walk alone would include it. -/
def fsRootDotted : FS :=
  { canon := fun p => some p, pathExists := fun _ => true, isFile := fun _ => true,
    read := fun _ => none,
    walk := fun d =>
      if d = [".cfg", "proj"] then [.ok [".cfg", "proj", "b.txt"] true] else [] }

/-- Two readable files `a.txt` and `b.txt`, for rendering runs. -/
def fsTwo : FS :=
  { canon := fun p => some p, pathExists := fun _ => true, isFile := fun _ => true,
    read := fun p => if p = ["a.txt"] then some "alpha\n" else some "beta\n",
    walk := fun _ => [] }

/-- A filesystem whose one readable file's content does not end in a
newline. -/
def fsNoNl : FS :=
  { canon := fun p => some p, pathExists := fun _ => true, isFile := fun _ => true,
    read := fun _ => some "abc", walk := fun _ => [] }

/-! ### Properties of the byte-order comparisons -/

theorem charListLt_irrefl (l : List Char) : charListLt l l = false := by
  induction l with
  | nil => rfl
  | cons a t ih => simp [charListLt, ih]

theorem charListLt_trans : ∀ {a b c : List Char},
    charListLt a b = true → charListLt b c = true → charListLt a c = true
  | [], b, c, h1, h2 => by
    cases b with
    | nil => exact absurd h1 (by simp [charListLt])
    | cons y bs =>
      cases c with
      | nil => exact absurd h2 (by simp [charListLt])
      | cons z cs => simp [charListLt]
  | x :: as, b, c, h1, h2 => by
    cases b with
    | nil => exact absurd h1 (by simp [charListLt])
    | cons y bs =>
      cases c with
      | nil => exact absurd h2 (by simp [charListLt])
      | cons z cs =>
        simp only [charListLt] at h1 h2 ⊢
        by_cases hxy : x = y
        · subst hxy
          rw [if_pos rfl] at h1
          by_cases hyz : x = z
          · subst hyz
            rw [if_pos rfl] at h2
            rw [if_pos rfl]
            exact charListLt_trans h1 h2
          · rw [if_neg hyz] at h2
            rw [if_neg hyz]
            exact h2
        · rw [if_neg hxy] at h1
          by_cases hyz : y = z
          · subst hyz
            rw [if_neg hxy]
            exact h1
          · rw [if_neg hyz] at h2
            have hx : x < y := of_decide_eq_true h1
            have hy : y < z := of_decide_eq_true h2
            have hxz : x < z := lt_trans hx hy
            rw [if_neg (ne_of_lt hxz)]
            exact decide_eq_true hxz

theorem charListLt_asymm {a b : List Char} (h1 : charListLt a b = true)
    (h2 : charListLt b a = true) : False := by
  have h := charListLt_trans h1 h2
  rw [charListLt_irrefl] at h
  exact Bool.false_ne_true h

theorem charListLt_connex : ∀ {a b : List Char}, a ≠ b →
    charListLt a b = true ∨ charListLt b a = true
  | [], [], h => absurd rfl h
  | [], _ :: _, _ => Or.inl (by simp [charListLt])
  | _ :: _, [], _ => Or.inr (by simp [charListLt])
  | x :: as, y :: bs, h => by
    by_cases hxy : x = y
    · subst hxy
      have hne : as ≠ bs := fun he => h (by rw [he])
      rcases charListLt_connex hne with h1 | h1
      · exact Or.inl (by simp [charListLt, h1])
      · exact Or.inr (by simp [charListLt, h1])
    · rcases lt_or_gt_of_ne hxy with hlt | hgt
      · exact Or.inl (by simp [charListLt, if_neg hxy, decide_eq_true hlt])
      · exact Or.inr (by simp [charListLt, if_neg (Ne.symm hxy), decide_eq_true hgt])

theorem strLe_refl (a : String) : strLe a a = true := by simp [strLe]

theorem strLe_total (a b : String) : (strLe a b || strLe b a) = true := by
  by_cases h : a = b
  · subst h
    simp [strLe]
  · have hd : a.data ≠ b.data := fun he => h (String.ext he)
    rcases charListLt_connex hd with h1 | h1 <;> simp [strLe, h1]

theorem strLe_trans {a b c : String} (h1 : strLe a b = true) (h2 : strLe b c = true) :
    strLe a c = true := by
  simp only [strLe, Bool.or_eq_true, beq_iff_eq] at h1 h2 ⊢
  rcases h1 with h1 | h1
  · subst h1
    exact h2
  · rcases h2 with h2 | h2
    · subst h2
      exact Or.inr h1
    · exact Or.inr (charListLt_trans h1 h2)

theorem strLe_antisymm {a b : String} (h1 : strLe a b = true) (h2 : strLe b a = true) :
    a = b := by
  simp only [strLe, Bool.or_eq_true, beq_iff_eq] at h1 h2
  rcases h1 with h1 | h1
  · exact h1
  · rcases h2 with h2 | h2
    · exact h2.symm
    · exact (charListLt_asymm h1 h2).elim

theorem pathLe_refl : ∀ p : FilePath, pathLe p p = true
  | [] => rfl
  | _ :: t => by simp [pathLe, pathLe_refl t]

theorem pathLe_total : ∀ a b : FilePath, (pathLe a b || pathLe b a) = true
  | [], b => by simp [pathLe]
  | _ :: _, [] => by simp [pathLe]
  | x :: as, y :: bs => by
    by_cases hxy : x = y
    · subst hxy
      simp only [pathLe, if_pos rfl]
      exact pathLe_total as bs
    · have hd : x.data ≠ y.data := fun he => hxy (String.ext he)
      rcases charListLt_connex hd with h1 | h1
      · simp [pathLe, if_neg hxy, h1]
      · simp [pathLe, if_neg (Ne.symm hxy), h1]

theorem pathLe_trans : ∀ {a b c : FilePath},
    pathLe a b = true → pathLe b c = true → pathLe a c = true
  | [], _, c, _, _ => by simp [pathLe]
  | _ :: _, [], _, h1, _ => by simp [pathLe] at h1
  | _ :: _, _ :: _, [], _, h2 => by simp [pathLe] at h2
  | x :: as, y :: bs, z :: cs, h1, h2 => by
    simp only [pathLe] at h1 h2 ⊢
    by_cases hxy : x = y
    · subst hxy
      rw [if_pos rfl] at h1
      by_cases hyz : x = z
      · subst hyz
        rw [if_pos rfl] at h2
        rw [if_pos rfl]
        exact pathLe_trans h1 h2
      · rw [if_neg hyz] at h2
        rw [if_neg hyz]
        exact h2
    · rw [if_neg hxy] at h1
      by_cases hyz : y = z
      · subst hyz
        rw [if_neg hxy]
        exact h1
      · rw [if_neg hyz] at h2
        have hxz : x ≠ z := by
          intro he
          subst he
          exact charListLt_asymm h1 h2
        rw [if_neg hxz]
        exact charListLt_trans h1 h2

/-! ### The stable sort: permutation and sortedness -/

theorem insertLe_perm (le : α → α → Bool) (a : α) :
    ∀ l : List α, (insertLe le a l).Perm (a :: l)
  | [] => List.Perm.refl _
  | b :: t => by
    simp only [insertLe]
    split
    · exact ((insertLe_perm le a t).cons b).trans (List.Perm.swap a b t)
    · exact List.Perm.refl _

theorem insertLe_pairwise (le : α → α → Bool)
    (htr : ∀ {x y z : α}, le x y = true → le y z = true → le x z = true)
    (htot : ∀ x y : α, (le x y || le y x) = true) (a : α) :
    ∀ {l : List α}, l.Pairwise (fun x y => le x y = true) →
      (insertLe le a l).Pairwise (fun x y => le x y = true)
  | [], _ => by simp [insertLe]
  | b :: t, h => by
    rw [List.pairwise_cons] at h
    obtain ⟨hb, ht⟩ := h
    simp only [insertLe]
    by_cases hba : le b a = true
    · rw [if_pos hba, List.pairwise_cons]
      refine ⟨?_, insertLe_pairwise le htr htot a ht⟩
      intro x hx
      rcases List.mem_cons.mp ((insertLe_perm le a t).mem_iff.mp hx) with he | hxt
      · rw [he]
        exact hba
      · exact hb x hxt
    · rw [if_neg hba, List.pairwise_cons]
      have hab : le a b = true := by
        rcases Bool.or_eq_true_iff.mp (htot a b) with h | h
        · exact h
        · exact absurd h hba
      refine ⟨?_, List.pairwise_cons.mpr ⟨hb, ht⟩⟩
      intro x hx
      rcases List.mem_cons.mp hx with he | hxt
      · rw [he]
        exact hab
      · exact htr hab (hb x hxt)

theorem foldl_insertLe_perm (le : α → α → Bool) :
    ∀ (l acc : List α),
      (l.foldl (fun acc a => insertLe le a acc) acc).Perm (acc ++ l)
  | [], acc => by simp
  | a :: t, acc => by
    simp only [List.foldl_cons]
    refine (foldl_insertLe_perm le t (insertLe le a acc)).trans ?_
    refine ((insertLe_perm le a acc).append_right t).trans ?_
    exact List.perm_middle.symm

theorem stableSort_perm (le : α → α → Bool) (l : List α) : (stableSort le l).Perm l := by
  have h := foldl_insertLe_perm le l []
  simpa [stableSort] using h

theorem foldl_insertLe_pairwise (le : α → α → Bool)
    (htr : ∀ {x y z : α}, le x y = true → le y z = true → le x z = true)
    (htot : ∀ x y : α, (le x y || le y x) = true) :
    ∀ (l acc : List α), acc.Pairwise (fun x y => le x y = true) →
      (l.foldl (fun acc a => insertLe le a acc) acc).Pairwise (fun x y => le x y = true)
  | [], _, h => h
  | a :: t, acc, h => by
    simp only [List.foldl_cons]
    exact foldl_insertLe_pairwise le htr htot t _ (insertLe_pairwise le htr htot a h)

theorem stableSort_pairwise (le : α → α → Bool)
    (htr : ∀ {x y z : α}, le x y = true → le y z = true → le x z = true)
    (htot : ∀ x y : α, (le x y || le y x) = true) (l : List α) :
    (stableSort le l).Pairwise (fun x y => le x y = true) :=
  foldl_insertLe_pairwise le htr htot l [] (by simp)

/-! ### Facts about the exclusion predicate and the glob walk -/

theorem is_excluded_of_lock {path : FilePath} (h : is_lock_file path = true)
    (fs : FS) (base_dir : FilePath) : is_excluded fs path base_dir = true := by
  simp [is_excluded, h]

theorem globFold_selected_append (fs : FS) (dir : FilePath)
    (patterns : List (String → Bool)) (ig : Bool) :
    ∀ (l : List WalkResult) (s : List FilePath) (w : Nat),
      (l.foldl (globStep fs dir patterns ig) { selected := s, warnings := w }).selected
        = s ++ (l.foldl (globStep fs dir patterns ig) { selected := [], warnings := 0 }).selected
  | [], s, w => by simp
  | r :: t, s, w => by
    simp only [List.foldl_cons]
    rcases r with ⟨path, isf⟩ | _
    · simp only [globStep]
      by_cases h1 : (isf && !(is_excluded fs path dir)) = true
      · by_cases h2 : (ig && is_rust_test_file path) = true
        · rw [if_pos h1, if_pos h1, if_pos h2, if_pos h2]
          exact globFold_selected_append fs dir patterns ig t s w
        · by_cases h3 : (patterns.any fun pat =>
              pat (pathStr (if dir.isPrefixOf path then path.drop dir.length else path))) = true
          · rw [if_pos h1, if_pos h1, if_neg h2, if_neg h2, if_pos h3, if_pos h3]
            rw [globFold_selected_append fs dir patterns ig t (s ++ [path]) w,
                globFold_selected_append fs dir patterns ig t ([] ++ [path]) 0]
            simp
          · rw [if_pos h1, if_pos h1, if_neg h2, if_neg h2, if_neg h3, if_neg h3]
            exact globFold_selected_append fs dir patterns ig t s w
      · rw [if_neg h1, if_neg h1]
        exact globFold_selected_append fs dir patterns ig t s w
    · simp only [globStep]
      rw [globFold_selected_append fs dir patterns ig t s (w + 1),
          globFold_selected_append fs dir patterns ig t [] (0 + 1)]
      simp

theorem globFold_not_excluded (fs : FS) (dir : FilePath)
    (patterns : List (String → Bool)) (ig : Bool) :
    ∀ (l : List WalkResult) (acc : SelOutcome),
      (∀ q ∈ acc.selected, is_excluded fs q dir = false) →
      ∀ p ∈ (l.foldl (globStep fs dir patterns ig) acc).selected,
        is_excluded fs p dir = false
  | [], _, hacc, p, hp => hacc p hp
  | r :: t, acc, hacc, p, hp => by
    rw [List.foldl_cons] at hp
    refine globFold_not_excluded fs dir patterns ig t _ ?_ p hp
    intro q hq
    rcases r with ⟨path, isf⟩ | _
    · simp only [globStep] at hq
      by_cases h1 : (isf && !(is_excluded fs path dir)) = true
      · by_cases h2 : (ig && is_rust_test_file path) = true
        · rw [if_pos h1, if_pos h2] at hq
          exact hacc q hq
        · by_cases h3 : (patterns.any fun pat =>
              pat (pathStr (if dir.isPrefixOf path then path.drop dir.length else path))) = true
          · rw [if_pos h1, if_neg h2, if_pos h3] at hq
            rcases List.mem_append.mp hq with hq | hq
            · exact hacc q hq
            · have hqe : q = path := by simpa using hq
              subst hqe
              simp at h1
              exact h1.2
          · rw [if_pos h1, if_neg h2, if_neg h3] at hq
            exact hacc q hq
      · rw [if_neg h1] at hq
        exact hacc q hq
    · simp only [globStep] at hq
      exact hacc q hq

theorem filterMap_valid_filter (raws : List RawPattern) :
    (raws.filter fun p => p.valid).filterMap
        (fun p => if p.valid then some p.accepts else none)
      = raws.filterMap fun p => if p.valid then some p.accepts else none := by
  induction raws with
  | nil => rfl
  | cons r t ih =>
    by_cases h : r.valid
    · simp [List.filter_cons, List.filterMap_cons, h, ih]
    · simp [List.filter_cons, List.filterMap_cons, h, ih]

/-! ### Keys, rendered chunks, and uniqueness of the sorted collection -/

theorem process_file_key {fs : FS} {p : FilePath} {ig : Bool} {pr : String × String}
    (h : process_file fs p ig = some pr) : pr.1 = pathStr p := by
  unfold process_file at h
  cases hr : fs.read p with
  | none =>
    rw [hr] at h
    exact absurd h (by simp)
  | some c =>
    rw [hr] at h
    have := Option.some.inj h
    rw [← this]

theorem mem_renderOutputs {fs : FS} {ig : Bool} {sel : List FilePath}
    {pr : String × String} (h : pr ∈ renderOutputs fs ig sel) :
    ∃ p ∈ sel, process_file fs p ig = some pr := by
  unfold renderOutputs at h
  exact List.mem_filterMap.mp h

theorem sortedKey_unique : ∀ {l1 l2 : List (String × String)},
    l1.Perm l2 →
    l1.Pairwise (fun a b => strLe a.1 b.1 = true) →
    l2.Pairwise (fun a b => strLe a.1 b.1 = true) →
    (∀ a ∈ l1, ∀ b ∈ l1, a.1 = b.1 → a = b) →
    l1 = l2
  | [], l2, hp, _, _, _ => hp.nil_eq
  | a :: t1, l2, hp, h1, h2, hu => by
    cases l2 with
    | nil => exact absurd hp.symm.nil_eq (by simp)
    | cons b t2 =>
      rw [List.pairwise_cons] at h1 h2
      have hbmem : b ∈ a :: t1 := hp.mem_iff.mpr (List.mem_cons_self b t2)
      have hab : a = b := by
        have hamem : a ∈ b :: t2 := hp.mem_iff.mp (List.mem_cons_self a t1)
        have hle1 : strLe a.1 b.1 = true := by
          rcases List.mem_cons.mp hbmem with he | hmem
          · rw [he]
            exact strLe_refl _
          · exact h1.1 b hmem
        have hle2 : strLe b.1 a.1 = true := by
          rcases List.mem_cons.mp hamem with he | hmem
          · rw [he]
            exact strLe_refl _
          · exact h2.1 a hmem
        exact hu a (List.mem_cons_self a t1) b hbmem (strLe_antisymm hle1 hle2)
      subst hab
      have ht := sortedKey_unique hp.cons_inv h1.2 h2.2
        (fun x hx y hy he =>
          hu x (List.mem_cons_of_mem a hx) y (List.mem_cons_of_mem a hy) he)
      rw [ht]

/-! ### Facts about the substring and character searches -/

theorem findSub_eq_none_iff {s pat : List Char} :
    findSub s pat = none ↔ ∀ k, ¬ pat.isPrefixOf (s.drop k) = true := by
  induction s with
  | nil =>
    by_cases hp : pat.isPrefixOf [] = true
    · simp only [findSub, if_pos hp]
      constructor
      · intro h
        exact absurd h (by simp)
      · intro h
        exact absurd hp (by simpa using h 0)
    · simp only [findSub, if_neg hp]
      constructor
      · intro _ k
        simpa using hp
      · intro _
        trivial
  | cons a t ih =>
    by_cases hp : pat.isPrefixOf (a :: t) = true
    · simp only [findSub, if_pos hp]
      constructor
      · intro h
        exact absurd h (by simp)
      · intro h
        exact absurd hp (by simpa using h 0)
    · simp only [findSub, if_neg hp]
      rw [Option.map_eq_none']
      rw [ih]
      constructor
      · intro h k
        cases k with
        | zero => simpa using hp
        | succ k => simpa using h k
      · intro h k
        simpa using h (k + 1)

theorem findSub_eq_some {s pat : List Char} {m : Nat}
    (hm : pat.isPrefixOf (s.drop m) = true)
    (hlt : ∀ k < m, ¬ pat.isPrefixOf (s.drop k) = true) :
    findSub s pat = some m := by
  induction s generalizing m with
  | nil =>
    cases m with
    | zero =>
      simp only [List.drop_nil] at hm
      simp [findSub, hm]
    | succ m =>
      exact absurd (by simpa using hm) (by simpa using hlt 0 (Nat.succ_pos m))
  | cons a t ih =>
    cases m with
    | zero =>
      simp only [List.drop_zero] at hm
      simp [findSub, hm]
    | succ m =>
      have h0 : ¬ pat.isPrefixOf (a :: t) = true := by simpa using hlt 0 (Nat.succ_pos m)
      rw [findSub, if_neg h0]
      rw [ih (by simpa using hm) (fun k hk => by simpa using hlt (k + 1) (by omega))]
      rfl

theorem findChar_append_self {u w : List Char} {c : Char} (h : c ∉ u) :
    findChar (u ++ c :: w) c = some u.length := by
  induction u with
  | nil => simp [findChar]
  | cons a t ih =>
    have ha : ¬ a = c := fun he => h (by rw [he]; exact List.mem_cons_self c t)
    rw [List.cons_append, findChar, if_neg ha,
      ih (fun hm => h (List.mem_cons_of_mem a hm))]
    rfl

theorem findChar_some_lt : ∀ {v : List Char} {c : Char} {B : Nat},
    findChar v c = some B → B < v.length
  | [], _, _, h => by simp [findChar] at h
  | a :: t, c, B, h => by
    rw [findChar] at h
    by_cases ha : a = c
    · rw [if_pos ha] at h
      cases h
      simp
    · rw [if_neg ha] at h
      cases hft : findChar t c with
      | none =>
        rw [hft] at h
        simp at h
      | some B2 =>
        rw [hft] at h
        simp only [Option.map_some'] at h
        cases h
        have := findChar_some_lt hft
        simp only [List.length_cons]
        omega

/-! ### The brace scan on never-rebalancing and on balanced bodies -/

theorem scanLen_eq_length {t : List Char} : ∀ {d : Nat}, 1 ≤ d →
    (∀ k ≤ t.length, (t.take k).count '}' < (t.take k).count '{' + d) →
    scanLen t d = t.length := by
  induction t with
  | nil =>
    intro d _ _
    rfl
  | cons c r ih =>
    intro d hd hk
    have hk1 := hk 1 (by simp)
    simp only [List.take_succ_cons, List.take_zero] at hk1
    simp only [scanLen, List.length_cons]
    by_cases hc1 : c = '{'
    · subst hc1
      rw [if_pos rfl, ih (d := d + 1) (by omega) ?_]
      · omega
      · intro k hkk
        have h2 := hk (k + 1) (by simpa using hkk)
        simp only [List.take_succ_cons] at h2
        simp [List.count_cons] at h2
        omega
    · by_cases hc2 : c = '}'
      · subst hc2
        simp [List.count_cons] at hk1
        have hd2 : ¬ d = 1 := by omega
        rw [if_neg hc1, if_pos rfl, if_neg hd2,
          ih (d := d - 1) (by omega) ?_]
        · omega
        · intro k hkk
          have h2 := hk (k + 1) (by simpa using hkk)
          simp only [List.take_succ_cons] at h2
          simp [List.count_cons] at h2
          omega
      · rw [if_neg hc1, if_neg hc2, ih (d := d) hd ?_]
        · omega
        · intro k hkk
          have h2 := hk (k + 1) (by simpa using hkk)
          simp only [List.take_succ_cons] at h2
          simp [List.count_cons, hc1, hc2] at h2
          omega

theorem scanLen_balanced {post : List Char} : ∀ {t : List Char} {d : Nat}, 1 ≤ d →
    (∀ k ≤ t.length, (t.take k).count '}' < (t.take k).count '{' + d) →
    d + t.count '{' = t.count '}' + 1 →
    scanLen (t ++ '}' :: post) d = t.length + 1 := by
  intro t
  induction t with
  | nil =>
    intro d _ _ hbal
    have hd1 : d = 1 := by simpa using hbal
    subst hd1
    simp [scanLen]
  | cons c r ih =>
    intro d hd hk hbal
    have hk1 := hk 1 (by simp)
    simp only [List.take_succ_cons, List.take_zero] at hk1
    rw [List.cons_append]
    simp only [scanLen, List.length_cons]
    by_cases hc1 : c = '{'
    · subst hc1
      simp [List.count_cons] at hbal
      rw [if_pos rfl, ih (d := d + 1) (by omega) ?_ (by omega)]
      · omega
      · intro k hkk
        have h2 := hk (k + 1) (by simpa using hkk)
        simp only [List.take_succ_cons] at h2
        simp [List.count_cons] at h2
        omega
    · by_cases hc2 : c = '}'
      · subst hc2
        simp [List.count_cons] at hk1 hbal
        have hd2 : ¬ d = 1 := by omega
        rw [if_neg hc1, if_pos rfl, if_neg hd2,
          ih (d := d - 1) (by omega) ?_ (by omega)]
        · omega
        · intro k hkk
          have h2 := hk (k + 1) (by simpa using hkk)
          simp only [List.take_succ_cons] at h2
          simp [List.count_cons] at h2
          omega
      · simp [List.count_cons, hc1, hc2] at hbal
        rw [if_neg hc1, if_neg hc2, ih (d := d) hd ?_ (by omega)]
        · omega
        · intro k hkk
          have h2 := hk (k + 1) (by simpa using hkk)
          simp only [List.take_succ_cons] at h2
          simp [List.count_cons, hc1, hc2] at h2
          omega

/-! ### Unfolding and composition laws for the strip loop -/

theorem stripLoop_base {s : List Char} {i : Nat} (acc : List Char) (h : ¬ i < s.length) :
    stripLoop s i acc = (acc, i) := by
  rw [stripLoop, dif_neg h]

theorem stripLoop_step_char {s : List Char} {i : Nat} (acc : List Char)
    (h : i < s.length) (hp : ¬ marker.isPrefixOf (s.drop i) = true) :
    stripLoop s i acc = stripLoop s (i + 1) (acc ++ [s.get ⟨i, h⟩]) := by
  rw [stripLoop]
  simp only [dif_pos h, hp, Bool.false_eq_true, if_false]

theorem stripLoop_step_skip1 {s : List Char} {i : Nat} (acc : List Char)
    (h : i < s.length) (hp : marker.isPrefixOf (s.drop i) = true)
    (hfs : findSub (s.drop i) modTests = none) :
    stripLoop s i acc = stripLoop s (i + marker.length) acc := by
  rw [stripLoop]
  simp only [dif_pos h, hp, hfs, if_true]

theorem stripLoop_step_skip2 {s : List Char} {i M : Nat} (acc : List Char)
    (h : i < s.length) (hp : marker.isPrefixOf (s.drop i) = true)
    (hfs : findSub (s.drop i) modTests = some M)
    (hfc : findChar (s.drop (i + M)) '{' = none) :
    stripLoop s i acc = stripLoop s (i + marker.length) acc := by
  rw [stripLoop]
  simp only [dif_pos h, hp, hfs, hfc, if_true]

theorem stripLoop_step_remove {s : List Char} {i M B : Nat} (acc : List Char)
    (h : i < s.length) (hp : marker.isPrefixOf (s.drop i) = true)
    (hfs : findSub (s.drop i) modTests = some M)
    (hfc : findChar (s.drop (i + M)) '{' = some B) :
    stripLoop s i acc = stripLoop s (scanMatch s (i + M + B + 1) 1) acc := by
  rw [stripLoop]
  simp only [dif_pos h, hp, hfs, hfc, if_true]

theorem stripLoop_copy {s : List Char} : ∀ {n : Nat} (i m : Nat) (acc : List Char),
    m - i ≤ n → i ≤ m → m ≤ s.length →
    (∀ k, i ≤ k → k < m → ¬ marker.isPrefixOf (s.drop k) = true) →
    stripLoop s i acc = stripLoop s m (acc ++ (s.drop i).take (m - i)) := by
  intro n
  induction n with
  | zero =>
    intro i m acc hn him _ _
    have he : i = m := by omega
    subst he
    simp
  | succ n ih =>
    intro i m acc hn him hm hnomark
    by_cases him2 : i = m
    · subst him2
      simp
    · have hlt : i < m := by omega
      have h : i < s.length := by omega
      rw [stripLoop_step_char acc h (hnomark i (le_refl i) hlt)]
      rw [ih (i + 1) m _ (by omega) (by omega) hm
        (fun k hk1 hk2 => hnomark k (by omega) hk2)]
      congr 1
      rw [List.append_assoc]
      congr 1
      rw [List.drop_eq_getElem_cons h]
      have he : m - i = (m - (i + 1)) + 1 := by omega
      rw [he, List.take_succ_cons]
      simp

theorem stripLoop_snd {s : List Char} : ∀ {n : Nat} (i : Nat) (acc : List Char),
    s.length - i ≤ n → i ≤ s.length → (stripLoop s i acc).2 = s.length := by
  intro n
  induction n with
  | zero =>
    intro i acc hn hi
    have h : ¬ i < s.length := by omega
    rw [stripLoop_base acc h]
    omega
  | succ n ih =>
    intro i acc hn hi
    by_cases h : i < s.length
    · by_cases hp : marker.isPrefixOf (s.drop i) = true
      · have hlen : marker.length ≤ (s.drop i).length :=
          List.IsPrefix.length_le (List.isPrefixOf_iff_prefix.mp hp)
        simp only [List.length_drop] at hlen
        have hm12 : marker.length = 12 := rfl
        cases hfs : findSub (s.drop i) modTests with
        | none =>
          rw [stripLoop_step_skip1 acc h hp hfs]
          exact ih _ acc (by omega) (by omega)
        | some M =>
          cases hfc : findChar (s.drop (i + M)) '{' with
          | none =>
            rw [stripLoop_step_skip2 acc h hp hfs hfc]
            exact ih _ acc (by omega) (by omega)
          | some B =>
            rw [stripLoop_step_remove acc h hp hfs hfc]
            have hBlt : B < (s.drop (i + M)).length := findChar_some_lt hfc
            simp only [List.length_drop] at hBlt
            have hj : i + M + B + 1 ≤ s.length := by omega
            have h1 := le_scanMatch s (i + M + B + 1) 1
            have h2 := scanMatch_le_length s (i + M + B + 1) 1 hj
            exact ih _ acc (by omega) (by omega)
      · rw [stripLoop_step_char acc h hp]
        exact ih _ _ (by omega) (by omega)
    · rw [stripLoop_base acc h]
      omega

theorem stripLoop_snd_eq {s : List Char} {i : Nat} (acc : List Char) (hi : i ≤ s.length) :
    (stripLoop s i acc).2 = s.length :=
  stripLoop_snd (n := s.length - i) i acc (le_refl _) hi

theorem stripLoop_acc {s : List Char} : ∀ {n : Nat} (i : Nat) (acc : List Char),
    s.length - i ≤ n →
    stripLoop s i acc = (acc ++ (stripLoop s i []).1, (stripLoop s i []).2) := by
  intro n
  induction n with
  | zero =>
    intro i acc hn
    have h : ¬ i < s.length := by omega
    rw [stripLoop_base acc h, stripLoop_base [] h]
    simp
  | succ n ih =>
    intro i acc hn
    by_cases h : i < s.length
    · by_cases hp : marker.isPrefixOf (s.drop i) = true
      · have hlen : marker.length ≤ (s.drop i).length :=
          List.IsPrefix.length_le (List.isPrefixOf_iff_prefix.mp hp)
        simp only [List.length_drop] at hlen
        have hm12 : marker.length = 12 := rfl
        cases hfs : findSub (s.drop i) modTests with
        | none =>
          rw [stripLoop_step_skip1 acc h hp hfs, stripLoop_step_skip1 [] h hp hfs]
          exact ih _ acc (by omega)
        | some M =>
          cases hfc : findChar (s.drop (i + M)) '{' with
          | none =>
            rw [stripLoop_step_skip2 acc h hp hfs hfc,
              stripLoop_step_skip2 [] h hp hfs hfc]
            exact ih _ acc (by omega)
          | some B =>
            rw [stripLoop_step_remove acc h hp hfs hfc,
              stripLoop_step_remove [] h hp hfs hfc]
            have h1 := le_scanMatch s (i + M + B + 1) 1
            exact ih _ acc (by omega)
      · rw [stripLoop_step_char acc h hp, stripLoop_step_char [] h hp]
        rw [ih _ (acc ++ [s.get ⟨i, h⟩]) (by omega),
          ih _ ([] ++ [s.get ⟨i, h⟩]) (by omega)]
        simp
    · rw [stripLoop_base acc h, stripLoop_base [] h]
      simp

theorem drop_append_len {α : Type} (u t : List α) (j : Nat) :
    (u ++ t).drop (u.length + j) = t.drop j := by
  induction u with
  | nil => simp
  | cons a u ih =>
    simp only [List.cons_append, List.length_cons]
    have he : u.length + 1 + j = (u.length + j) + 1 := by omega
    rw [he, List.drop_succ_cons, ih]

theorem stripLoop_shift {u t : List Char} : ∀ {n : Nat} (j : Nat) (acc : List Char),
    t.length - j ≤ n →
    stripLoop (u ++ t) (u.length + j) acc
      = ((stripLoop t j acc).1, u.length + (stripLoop t j acc).2) := by
  intro n
  induction n with
  | zero =>
    intro j acc hn
    have h : ¬ j < t.length := by omega
    have h2 : ¬ u.length + j < (u ++ t).length := by
      simp only [List.length_append]
      omega
    rw [stripLoop_base acc h2, stripLoop_base acc h]
  | succ n ih =>
    intro j acc hn
    have hdrop : (u ++ t).drop (u.length + j) = t.drop j := drop_append_len u t j
    by_cases h : j < t.length
    · have h2 : u.length + j < (u ++ t).length := by
        simp only [List.length_append]
        omega
      by_cases hp : marker.isPrefixOf (t.drop j) = true
      · have hlen : marker.length ≤ (t.drop j).length :=
          List.IsPrefix.length_le (List.isPrefixOf_iff_prefix.mp hp)
        simp only [List.length_drop] at hlen
        have hm12 : marker.length = 12 := rfl
        cases hfs : findSub (t.drop j) modTests with
        | none =>
          rw [stripLoop_step_skip1 acc h2 (by rw [hdrop]; exact hp)
            (by rw [hdrop]; exact hfs)]
          rw [stripLoop_step_skip1 acc h hp hfs]
          have he : u.length + j + marker.length = u.length + (j + marker.length) := by omega
          rw [he]
          exact ih _ acc (by omega)
        | some M =>
          have hdrop2 : (u ++ t).drop (u.length + j + M) = t.drop (j + M) := by
            have he : u.length + j + M = u.length + (j + M) := by omega
            rw [he]
            exact drop_append_len u t (j + M)
          cases hfc : findChar (t.drop (j + M)) '{' with
          | none =>
            rw [stripLoop_step_skip2 acc h2 (by rw [hdrop]; exact hp)
              (by rw [hdrop]; exact hfs) (by rw [hdrop2]; exact hfc)]
            rw [stripLoop_step_skip2 acc h hp hfs hfc]
            have he : u.length + j + marker.length = u.length + (j + marker.length) := by omega
            rw [he]
            exact ih _ acc (by omega)
          | some B =>
            rw [stripLoop_step_remove acc h2 (by rw [hdrop]; exact hp)
              (by rw [hdrop]; exact hfs) (by rw [hdrop2]; exact hfc)]
            rw [stripLoop_step_remove acc h hp hfs hfc]
            have hsm : scanMatch (u ++ t) (u.length + j + M + B + 1) 1
                = u.length + scanMatch t (j + M + B + 1) 1 := by
              rw [scanMatch_eq_scanLen, scanMatch_eq_scanLen]
              have he : u.length + j + M + B + 1 = u.length + (j + M + B + 1) := by omega
              rw [he, drop_append_len u t (j + M + B + 1)]
              omega
            rw [hsm]
            have h1 := le_scanMatch t (j + M + B + 1) 1
            exact ih _ acc (by omega)
      · have hget : (u ++ t).get ⟨u.length + j, h2⟩ = t.get ⟨j, h⟩ := by
          simp only [List.get_eq_getElem]
          rw [List.getElem_append_right (by omega)]
          congr 1
          omega
        rw [stripLoop_step_char acc h2 (by rw [hdrop]; exact hp)]
        rw [stripLoop_step_char acc h hp]
        rw [hget]
        have he : u.length + j + 1 = u.length + (j + 1) := by omega
        rw [he]
        exact ih _ _ (by omega)
    · have h2 : ¬ u.length + j < (u ++ t).length := by
        simp only [List.length_append]
        omega
      rw [stripLoop_base acc h2, stripLoop_base acc (by omega)]

theorem strip_rust_tests_eq_fst (t : List Char) :
    strip_rust_tests t = (stripLoop t 0 []).1 := by
  simp only [strip_rust_tests]
  rw [stripLoop_snd_eq [] (Nat.zero_le t.length)]
  simp

theorem stripLoop_tail {s t : List Char} {q : Nat} (acc : List Char)
    (hq : q ≤ s.length) (ht : s.drop q = t) :
    stripLoop s q acc = (acc ++ strip_rust_tests t, s.length) := by
  have hsplit : s = s.take q ++ t := by rw [← ht, List.take_append_drop]
  have hlen : (s.take q).length = q := by
    simp only [List.length_take]
    omega
  have h0 : stripLoop s q acc = stripLoop (s.take q ++ t) ((s.take q).length + 0) acc := by
    rw [← hsplit, hlen, Nat.add_zero]
  rw [h0, stripLoop_shift (n := t.length) 0 acc (by omega)]
  rw [stripLoop_acc (n := t.length) 0 acc (by omega)]
  rw [strip_rust_tests_eq_fst]
  have hsnd : (stripLoop t 0 []).2 = t.length := stripLoop_snd_eq [] (Nat.zero_le _)
  have hslen : s.length = q + t.length := by
    rw [hsplit]
    simp only [List.length_append, hlen]
  simp only [hsnd, hlen, hslen]

theorem strip_of_no_marker {t : List Char} (h : findSub t marker = none) :
    strip_rust_tests t = t := by
  rw [strip_rust_tests_eq_fst]
  have hall := findSub_eq_none_iff.mp h
  have hcopy := stripLoop_copy (n := t.length) 0 t.length []
    (by omega) (by omega) (le_refl _) (fun k _ _ => hall k)
  rw [hcopy, stripLoop_base _ (lt_irrefl _)]
  simp

theorem testBlock_drop_scan (pre mid mid2 rest : List Char) :
    (pre ++ testBlock mid mid2 rest).drop
      (pre.length + (marker.length + mid.length) + (modTests.length + mid2.length) + 1)
      = rest := by
  have hsplit : pre ++ testBlock mid mid2 rest
      = (pre ++ (marker ++ (mid ++ (modTests ++ mid2)))) ++ ('{' :: rest) := by
    simp [testBlock, List.append_assoc]
  have he : pre.length + (marker.length + mid.length) + (modTests.length + mid2.length) + 1
      = (pre ++ (marker ++ (mid ++ (modTests ++ mid2)))).length + 1 := by
    simp only [List.length_append]
    omega
  rw [hsplit, he, drop_append_len]
  simp

theorem testBlock_length (pre mid mid2 rest : List Char) :
    (pre ++ testBlock mid mid2 rest).length
      = pre.length + (marker.length + mid.length) + (modTests.length + mid2.length)
          + 1 + rest.length := by
  simp only [testBlock, List.length_append, List.length_cons]
  omega

theorem stripLoop_to_scan (pre mid mid2 rest : List Char)
    (h1 : ∀ k < pre.length,
      ¬ marker.isPrefixOf ((pre ++ testBlock mid mid2 rest).drop k) = true)
    (h2 : ∀ k < marker.length + mid.length,
      ¬ modTests.isPrefixOf ((testBlock mid mid2 rest).drop k) = true)
    (h3 : '{' ∉ mid2) :
    stripLoop (pre ++ testBlock mid mid2 rest) 0 []
      = stripLoop (pre ++ testBlock mid mid2 rest)
          (scanMatch (pre ++ testBlock mid mid2 rest)
            (pre.length + (marker.length + mid.length)
              + (modTests.length + mid2.length) + 1) 1) pre := by
  have hdropP : (pre ++ testBlock mid mid2 rest).drop pre.length = testBlock mid mid2 rest :=
    List.drop_left _ _
  have hPle : pre.length ≤ (pre ++ testBlock mid mid2 rest).length := by
    simp only [List.length_append]
    omega
  have hPlt : pre.length < (pre ++ testBlock mid mid2 rest).length := by
    simp only [List.length_append, testBlock, List.length_cons]
    omega
  have hcopy := stripLoop_copy (n := pre.length) 0 pre.length []
    (by omega) (by omega) hPle (fun k _ hk => h1 k hk)
  have htake : ([] : List Char)
      ++ ((pre ++ testBlock mid mid2 rest).drop 0).take (pre.length - 0) = pre := by
    simp only [List.nil_append, List.drop_zero, Nat.sub_zero]
    exact List.take_left _ _
  rw [hcopy, htake]
  have hp : marker.isPrefixOf ((pre ++ testBlock mid mid2 rest).drop pre.length) = true := by
    rw [hdropP]
    simp only [testBlock]
    exact List.isPrefixOf_iff_prefix.mpr (List.prefix_append _ _)
  have hfs : findSub ((pre ++ testBlock mid mid2 rest).drop pre.length) modTests
      = some (marker.length + mid.length) := by
    rw [hdropP]
    apply findSub_eq_some
    · have he : testBlock mid mid2 rest
          = (marker ++ mid) ++ (modTests ++ (mid2 ++ '{' :: rest)) := by
        simp [testBlock, List.append_assoc]
      rw [he, show marker.length + mid.length = (marker ++ mid).length
          from (List.length_append _ _).symm, List.drop_left]
      exact List.isPrefixOf_iff_prefix.mpr (List.prefix_append _ _)
    · exact h2
  have hfc : findChar ((pre ++ testBlock mid mid2 rest).drop
      (pre.length + (marker.length + mid.length))) '{'
      = some (modTests.length + mid2.length) := by
    have he : (pre ++ testBlock mid mid2 rest).drop (pre.length + (marker.length + mid.length))
        = (modTests ++ mid2) ++ '{' :: rest := by
      have hsplit : pre ++ testBlock mid mid2 rest
          = (pre ++ (marker ++ mid)) ++ ((modTests ++ mid2) ++ '{' :: rest) := by
        simp [testBlock, List.append_assoc]
      have he2 : pre.length + (marker.length + mid.length)
          = (pre ++ (marker ++ mid)).length + 0 := by
        simp only [List.length_append]
        omega
      rw [hsplit, he2, drop_append_len]
      simp
    rw [he, show modTests.length + mid2.length = (modTests ++ mid2).length
        from (List.length_append _ _).symm]
    apply findChar_append_self
    intro hmem
    rcases List.mem_append.mp hmem with hmm | hmm
    · exact absurd hmm (by decide)
    · exact h3 hmm
  exact stripLoop_step_remove pre hPlt hp hfs hfc

/-- When the text before a fixed tail ends in a newline and is followed
by `cc`, the newline-fronted suffix is present exactly when `cc` is
empty or itself ends in a newline. -/
theorem suffix_newline_iff {w0 cc T : List Char} :
    ('\n' :: T) <:+ (((w0 ++ ['\n']) ++ cc) ++ T) ↔ (cc = [] ∨ ['\n'] <:+ cc) := by
  constructor
  · rintro ⟨u, hu⟩
    by_cases hne : cc = []
    · exact Or.inl hne
    · right
      have hcancel : u ++ ['\n'] = (w0 ++ ['\n']) ++ cc := by
        have h2 : (u ++ ['\n']) ++ T = ((w0 ++ ['\n']) ++ cc) ++ T := by
          rw [← hu]
          simp [List.append_assoc]
        exact List.append_cancel_right h2
      have h1 : ((w0 ++ ['\n']) ++ cc).getLast? = some '\n' := by
        rw [← hcancel]
        exact List.getLast?_concat u
      rw [List.getLast?_append, List.getLast?_eq_getLast cc hne] at h1
      simp only [Option.or_some, Option.some.injEq] at h1
      refine ⟨cc.dropLast, ?_⟩
      rw [← h1]
      exact List.dropLast_append_getLast hne
  · rintro (rfl | ⟨v, rfl⟩)
    · exact ⟨w0, by simp⟩
    · exact ⟨(w0 ++ ['\n']) ++ v, by simp [List.append_assoc]⟩

/-! ### The claims -/

/-- C1: the spec says a nonexistent listed path in explicit-file mode is
warned about and skipped, the run continuing to a zero exit with an empty
buffer.  The code instead calls `canonicalize()?`, which fails for a
nonexistent path and aborts `main` with an error (nonzero exit) before
the warning check is reached: with `missing.txt` absent, the whole run is
an error, not a warning plus empty output. -/
theorem explicit_missing_file_aborts :
    runSelection fs0 cfgMissing = .error () ∧ finalOutput fs0 cfgMissing = .error () :=
  ⟨rfl, rfl⟩

/-- C2 counterexample: with exactly one configured glob pattern whose
syntax is invalid, the run is not fatal — the pattern is dropped with a
diagnostic, selection is empty, and the run completes normally (`ok`,
i.e. a zero exit status) with an empty output buffer. -/
theorem single_invalid_pattern_not_fatal :
    cfgSingleInvalid.patterns.length = 1 ∧ invalidPattern.valid = false ∧
    runSelection fsOneGo cfgSingleInvalid = .ok { selected := [], warnings := 1 } ∧
    finalOutput fsOneGo cfgSingleInvalid = .ok "" :=
  ⟨rfl, rfl, rfl, rfl⟩

/-- C2 (amended): an invalid glob pattern is warned about and dropped in
every configuration — single- or multi-pattern — and the remaining
patterns still apply; glob mode never aborts the run, so even a sole
invalid pattern leads to a normal (`ok`) completion, with the same
selection as if the invalid patterns had not been configured. -/
theorem invalid_patterns_dropped (fs : FS) (cfg : Config) (hglob : cfg.files = []) :
    runSelection fs cfg = .ok (selectGlob fs cfg.dir cfg.patterns cfg.ignore_tests) ∧
    (selectGlob fs cfg.dir cfg.patterns cfg.ignore_tests).selected
      = (selectGlob fs cfg.dir (cfg.patterns.filter fun p => p.valid)
          cfg.ignore_tests).selected := by
  constructor
  · simp [runSelection, hglob]
  · have e1 := globFold_selected_append fs cfg.dir
      (cfg.patterns.filterMap fun p => if p.valid then some p.accepts else none)
      cfg.ignore_tests (fs.walk cfg.dir) []
      ((cfg.patterns.filter fun p => !p.valid).length)
    have e2 := globFold_selected_append fs cfg.dir
      (cfg.patterns.filterMap fun p => if p.valid then some p.accepts else none)
      cfg.ignore_tests (fs.walk cfg.dir) []
      (((cfg.patterns.filter fun p => p.valid).filter fun p => !p.valid).length)
    simp only [selectGlob, filterMap_valid_filter]
    rw [e1, e2]

/-- Witness for C2: the amended statement applied to the concrete
single-invalid-pattern run. -/
theorem invalid_patterns_dropped_witness :
    runSelection fsOneGo cfgSingleInvalid
      = .ok (selectGlob fsOneGo cfgSingleInvalid.dir cfgSingleInvalid.patterns
          cfgSingleInvalid.ignore_tests) ∧
    (selectGlob fsOneGo cfgSingleInvalid.dir cfgSingleInvalid.patterns
        cfgSingleInvalid.ignore_tests).selected
      = (selectGlob fsOneGo cfgSingleInvalid.dir
          (cfgSingleInvalid.patterns.filter fun p => p.valid)
          cfgSingleInvalid.ignore_tests).selected :=
  invalid_patterns_dropped fsOneGo cfgSingleInvalid rfl

/-- C3 counterexample: the final selection is not deduplicated — listing
the same file twice in explicit mode selects it twice — and the sort is
`PathBuf`'s componentwise order, which can disagree with full-path-string
byte order: the run selects `[r/a/b, r/a-b]` in that order although the
full string `r/a-b` is bytewise strictly below `r/a/b`. -/
theorem selection_dup_and_componentwise_order :
    finalSelection fsDup cfgListedTwice = .ok [["r", "a.txt"], ["r", "a.txt"]] ∧
    finalSelection fsDup cfgTwoFiles = .ok [["r", "a", "b"], ["r", "a-b"]] ∧
    charListLt (pathStr ["r", "a-b"]).data (pathStr ["r", "a", "b"]).data = true :=
  ⟨rfl, rfl, by decide⟩

/-- C3 (amended): for every run, the final selection just before content
formatting is sorted ascending in the componentwise path order
(`PathBuf: Ord`); it is not deduplicated, and its order can differ from
full-path-string byte order. -/
theorem finalSelection_sorted_componentwise (fs : FS) (cfg : Config)
    (sel : List FilePath) (h : finalSelection fs cfg = .ok sel) :
    sel.Pairwise fun a b => pathLe a b = true := by
  unfold finalSelection at h
  cases hr : runSelection fs cfg with
  | error e =>
    rw [hr] at h
    simp [Except.map] at h
  | ok o =>
    rw [hr] at h
    simp only [Except.map] at h
    injection h with h
    rw [← h]
    exact stableSort_pairwise pathLe
      (fun hxy hyz => pathLe_trans hxy hyz) pathLe_total o.selected

/-- Witness for C3: the amended statement applied to the duplicate-listing
run. -/
theorem finalSelection_sorted_componentwise_witness :
    ([["r", "a.txt"], ["r", "a.txt"]] : List FilePath).Pairwise
      (fun a b => pathLe a b = true) :=
  finalSelection_sorted_componentwise fsDup cfgListedTwice
    [["r", "a.txt"], ["r", "a.txt"]] rfl

/-- C5: the lock-file rule is applied first in the exclusion predicate —
a lock file is excluded whatever the ignore state (quantification over
every `fs`) and whatever its other components; a filename ending in
`.lock` or equal to one of the recognized dependency-lock filenames
(`Cargo.lock`, `package-lock.json`, `yarn.lock` among them) makes a path
a lock file; and no glob-mode selection, under any patterns, ever
contains a lock file. -/
theorem lock_file_rule_first :
    (∀ (fs : FS) (path base_dir : FilePath),
      is_lock_file path = true → is_excluded fs path base_dir = true) ∧
    (∀ (path : FilePath) (name : String), fileName path = some name →
      strEnds name ".lock" = true ∨ name = "Cargo.lock" ∨
        name = "package-lock.json" ∨ name = "yarn.lock" →
      is_lock_file path = true) ∧
    (∀ (fs : FS) (dir : FilePath) (raws : List RawPattern) (ig : Bool)
        (p : FilePath), p ∈ (selectGlob fs dir raws ig).selected →
      is_lock_file p = false) := by
  refine ⟨fun fs path base h => is_excluded_of_lock h fs base, ?_, ?_⟩
  · intro path name hn hd
    simp only [is_lock_file, hn]
    rcases hd with h | h | h | h <;> simp [h]
  · intro fs dir raws ig p hp
    unfold selectGlob at hp
    have hex := globFold_not_excluded fs dir _ ig (fs.walk dir) _ (by simp) p hp
    by_cases hl : is_lock_file p = true
    · rw [is_excluded_of_lock hl fs dir] at hex
      exact absurd hex (by simp)
    · simpa using hl

/-- Witness for C5: `Cargo.lock` is a lock file and is excluded even on a
filesystem whose ignore state would include everything. -/
theorem lock_file_rule_first_witness :
    is_excluded fs0 ["Cargo.lock"] [] = true ∧ is_lock_file ["Cargo.lock"] = true :=
  ⟨lock_file_rule_first.1 fs0 ["Cargo.lock"] [] (by decide),
    lock_file_rule_first.2.1 ["Cargo.lock"] "Cargo.lock" (by decide)
      (Or.inr (Or.inl rfl))⟩

/-- C6 counterexample: a dotted component belonging to the root's own
path does cause exclusion — for root `.cfg/proj` the file
`.cfg/proj/b.txt` is excluded although its only dotted component is the
root's, the gitignore re-walk would include it, and it is not a lock
file. -/
theorem root_dotted_component_excluded :
    is_excluded fsRootDotted [".cfg", "proj", "b.txt"] [".cfg", "proj"] = true ∧
    is_ignored_by_gitignore fsRootDotted [".cfg", "proj"] [".cfg", "proj", "b.txt"] = false ∧
    is_lock_file [".cfg", "proj", "b.txt"] = false ∧
    strStarts "b.txt" "." = false ∧ strStarts "proj" "." = false := by
  refine ⟨by decide, by decide, by decide, by decide, by decide⟩

/-- C6 (amended): the hidden-component rule excludes a path as soon as
any of its normal components starts with `.` — including components of
the root's own path, since the check walks the full path; in particular
`a/.hidden/b.txt` is excluded though its leaf is not dotted. -/
theorem hidden_component_excludes (fs : FS) (path base_dir : FilePath)
    (component : String) (hmem : component ∈ path)
    (hdot : strStarts component "." = true) :
    is_excluded fs path base_dir = true := by
  unfold is_excluded
  split
  · rfl
  · rw [if_pos (List.any_eq_true.mpr ⟨component, hmem, hdot⟩)]

/-- Witness for C6: `a/.hidden/b.txt` is excluded. -/
theorem hidden_component_excludes_witness :
    is_excluded fs0 ["a", ".hidden", "b.txt"] ["a"] = true :=
  hidden_component_excludes fs0 ["a", ".hidden", "b.txt"] ["a"] ".hidden"
    (by decide) (by decide)

/-- C4: for a fixed selection and fixed file contents, any collection
order of the per-file results (the parallel workers' completion order is
an arbitrary permutation of the sequential result list) yields a final
concatenated buffer byte-identical to the sequential one, because the
collected results are re-sorted by path key before concatenation.  The
injectivity hypothesis states that distinct selected paths have distinct
display strings, which holds of real paths (components contain no
separator). -/
theorem parallel_output_invariant (fs : FS) (ig : Bool) (sel : List FilePath)
    (outs : List (String × String))
    (hperm : outs.Perm (renderOutputs fs ig sel))
    (hinj : ∀ p1 ∈ sel, ∀ p2 ∈ sel, pathStr p1 = pathStr p2 → p1 = p2) :
    concatChunks outs = concatChunks (renderOutputs fs ig sel) := by
  have hkey : ∀ a ∈ renderOutputs fs ig sel, ∀ b ∈ renderOutputs fs ig sel,
      a.1 = b.1 → a = b := by
    intro a ha b hb he
    obtain ⟨p1, hp1, he1⟩ := mem_renderOutputs ha
    obtain ⟨p2, hp2, he2⟩ := mem_renderOutputs hb
    have hps : p1 = p2 := by
      refine hinj p1 hp1 p2 hp2 ?_
      rw [← process_file_key he1, ← process_file_key he2, he]
    subst hps
    rw [he1] at he2
    exact Option.some.inj he2
  have hsorteq : sortByKey outs = sortByKey (renderOutputs fs ig sel) := by
    refine sortedKey_unique ?_ ?_ ?_ ?_
    · exact ((stableSort_perm _ outs).trans hperm).trans (stableSort_perm _ _).symm
    · exact stableSort_pairwise (fun a b => strLe a.1 b.1)
        (fun {x y z} (hxy : strLe x.1 y.1 = true) (hyz : strLe y.1 z.1 = true) =>
          strLe_trans hxy hyz)
        (fun a b => strLe_total a.1 b.1) outs
    · exact stableSort_pairwise (fun a b => strLe a.1 b.1)
        (fun {x y z} (hxy : strLe x.1 y.1 = true) (hyz : strLe y.1 z.1 = true) =>
          strLe_trans hxy hyz)
        (fun a b => strLe_total a.1 b.1) (renderOutputs fs ig sel)
    · intro a ha b hb he
      have ha' : a ∈ renderOutputs fs ig sel :=
        hperm.subset ((stableSort_perm _ outs).subset ha)
      have hb' : b ∈ renderOutputs fs ig sel :=
        hperm.subset ((stableSort_perm _ outs).subset hb)
      exact hkey a ha' b hb' he
  unfold concatChunks
  rw [hsorteq]

/-- C7: when the input is `pre`, then the marker `#[cfg(test)]`, then (at
the first following `mod tests` and its first following brace) a
brace-balanced body, the stripper removes exactly the span from the
marker through the matching closing brace and leaves every other byte
unchanged (output `pre ++ post`); and when the marker is present but no
`mod tests` (or no opening brace) follows, only the marker itself is
skipped and scanning continues over the rest. -/
theorem strip_rust_tests_removes_block :
    (∀ pre mid mid2 body post : List Char,
      (∀ k < pre.length,
        ¬ marker.isPrefixOf ((pre ++ testBlock mid mid2 (body ++ '}' :: post)).drop k) = true) →
      (∀ k < marker.length + mid.length,
        ¬ modTests.isPrefixOf ((testBlock mid mid2 (body ++ '}' :: post)).drop k) = true) →
      '{' ∉ mid2 →
      (∀ k ≤ body.length, (body.take k).count '}' < (body.take k).count '{' + 1) →
      body.count '{' = body.count '}' →
      findSub post marker = none →
      strip_rust_tests (pre ++ testBlock mid mid2 (body ++ '}' :: post)) = pre ++ post) ∧
    (∀ pre tail : List Char,
      (∀ k < pre.length,
        ¬ marker.isPrefixOf ((pre ++ (marker ++ tail)).drop k) = true) →
      (findSub (marker ++ tail) modTests = none ∨
        ∃ M, findSub (marker ++ tail) modTests = some M ∧
          findChar ((marker ++ tail).drop M) '{' = none) →
      strip_rust_tests (pre ++ (marker ++ tail)) = pre ++ strip_rust_tests tail) := by
  constructor
  · intro pre mid mid2 body post h1 h2 h3 h4 h5 h6
    rw [strip_rust_tests_eq_fst, stripLoop_to_scan pre mid mid2 (body ++ '}' :: post) h1 h2 h3]
    have hscan : scanMatch (pre ++ testBlock mid mid2 (body ++ '}' :: post))
        (pre.length + (marker.length + mid.length) + (modTests.length + mid2.length) + 1) 1
        = pre.length + (marker.length + mid.length) + (modTests.length + mid2.length) + 1
          + (body.length + 1) := by
      rw [scanMatch_eq_scanLen, testBlock_drop_scan,
        scanLen_balanced (le_refl 1) h4 (by omega)]
    rw [hscan]
    have htail := stripLoop_tail
      (s := pre ++ testBlock mid mid2 (body ++ '}' :: post)) (t := post)
      (q := pre.length + (marker.length + mid.length) + (modTests.length + mid2.length) + 1
        + (body.length + 1)) pre
      (by rw [testBlock_length]
          simp only [List.length_append, List.length_cons]
          omega)
      (by have hU : pre ++ testBlock mid mid2 (body ++ '}' :: post)
              = (pre ++ (marker ++ (mid ++ (modTests
                  ++ (mid2 ++ '{' :: (body ++ ['}'])))))) ++ post := by
            simp [testBlock, List.append_assoc]
          have hUlen : (pre ++ (marker ++ (mid ++ (modTests
                ++ (mid2 ++ '{' :: (body ++ ['}'])))))).length
              = pre.length + (marker.length + mid.length)
                  + (modTests.length + mid2.length) + 1 + (body.length + 1) := by
            simp only [List.length_append, List.length_cons, List.length_nil]
            omega
          rw [hU, ← hUlen]
          exact List.drop_left _ _)
    rw [htail, strip_of_no_marker h6]
  · intro pre tail h1 hno
    have hm12 : marker.length = 12 := rfl
    have hdropP : (pre ++ (marker ++ tail)).drop pre.length = marker ++ tail :=
      List.drop_left _ _
    have hPle : pre.length ≤ (pre ++ (marker ++ tail)).length := by
      simp only [List.length_append]
      omega
    have hPlt : pre.length < (pre ++ (marker ++ tail)).length := by
      simp only [List.length_append]
      omega
    have hcopy := stripLoop_copy (n := pre.length) 0 pre.length []
      (by omega) (by omega) hPle (fun k _ hk => h1 k hk)
    have htake : ([] : List Char)
        ++ ((pre ++ (marker ++ tail)).drop 0).take (pre.length - 0) = pre := by
      simp only [List.nil_append, List.drop_zero, Nat.sub_zero]
      exact List.take_left _ _
    rw [strip_rust_tests_eq_fst, hcopy, htake]
    have hp : marker.isPrefixOf ((pre ++ (marker ++ tail)).drop pre.length) = true := by
      rw [hdropP]
      exact List.isPrefixOf_iff_prefix.mpr (List.prefix_append _ _)
    have hskip : stripLoop (pre ++ (marker ++ tail)) pre.length pre
        = stripLoop (pre ++ (marker ++ tail)) (pre.length + marker.length) pre := by
      rcases hno with hno | ⟨M, hfsM, hfcM⟩
      · exact stripLoop_step_skip1 pre hPlt hp (by rw [hdropP]; exact hno)
      · refine stripLoop_step_skip2 pre hPlt hp (by rw [hdropP]; exact hfsM) ?_
        rw [drop_append_len pre (marker ++ tail) M]
        exact hfcM
    rw [hskip]
    have htail2 := stripLoop_tail (s := pre ++ (marker ++ tail)) (t := tail)
      (q := pre.length + marker.length) pre
      (by simp only [List.length_append]
          omega)
      (by rw [show pre ++ (marker ++ tail) = (pre ++ marker) ++ tail
            from (List.append_assoc _ _ _).symm,
          show pre.length + marker.length = (pre ++ marker).length
            from (List.length_append _ _).symm, List.drop_left])
    rw [htail2]

/-- Witness for C7: a balanced `#[cfg(test)]\nmod tests { … }` region is
removed exactly, and a bare marker with no following module is skipped
alone while scanning continues. -/
theorem strip_rust_tests_removes_block_witness :
    strip_rust_tests ("fn a() \x7b\x7d\n".data ++ testBlock "\n".data " ".data
        (" fn t() \x7b\x7d ".data ++ '}' :: "\nfn b()".data))
      = "fn a() \x7b\x7d\n".data ++ "\nfn b()".data ∧
    strip_rust_tests ("x ".data ++ (marker ++ " y".data))
      = "x ".data ++ strip_rust_tests " y".data :=
  ⟨strip_rust_tests_removes_block.1 "fn a() \x7b\x7d\n".data "\n".data " ".data
      " fn t() \x7b\x7d ".data "\nfn b()".data (by decide) (by decide) (by decide)
      (by decide) (by decide) (by decide),
    strip_rust_tests_removes_block.2 "x ".data " y".data (by decide)
      (Or.inl (by decide))⟩

/-- C9: the test-stripping function is the identity on every input that
does not contain the marker `#[cfg(test)]`. -/
theorem strip_rust_tests_id_of_no_marker (s : String)
    (h : findSub s.data marker = none) : stripRustTestsStr s = s := by
  simp only [stripRustTestsStr]
  rw [strip_of_no_marker h]

/-- Witness for C9: an ordinary source text is returned byte-identical. -/
theorem strip_rust_tests_id_of_no_marker_witness :
    stripRustTestsStr "fn main() \x7b 1 + 1; \x7d\n" = "fn main() \x7b 1 + 1; \x7d\n" :=
  strip_rust_tests_id_of_no_marker "fn main() \x7b 1 + 1; \x7d\n" (by decide)

/-- C10: when the marker, a following `mod tests` and an opening brace
are all found but the braces never re-balance, the scan consumes the
whole remainder: the loop ends exactly at the input's length (so the
trailing append-remainder branch of `strip_rust_tests` contributes
nothing) and everything from the marker on is removed. -/
theorem strip_rust_tests_unbalanced_consumes_all (pre mid mid2 body : List Char)
    (h1 : ∀ k < pre.length,
      ¬ marker.isPrefixOf ((pre ++ testBlock mid mid2 body).drop k) = true)
    (h2 : ∀ k < marker.length + mid.length,
      ¬ modTests.isPrefixOf ((testBlock mid mid2 body).drop k) = true)
    (h3 : '{' ∉ mid2)
    (h4 : ∀ k ≤ body.length, (body.take k).count '}' < (body.take k).count '{' + 1) :
    stripLoop (pre ++ testBlock mid mid2 body) 0 []
        = (pre, (pre ++ testBlock mid mid2 body).length) ∧
    strip_rust_tests (pre ++ testBlock mid mid2 body) = pre := by
  have hscan : scanMatch (pre ++ testBlock mid mid2 body)
      (pre.length + (marker.length + mid.length) + (modTests.length + mid2.length) + 1) 1
      = (pre ++ testBlock mid mid2 body).length := by
    rw [scanMatch_eq_scanLen, testBlock_drop_scan,
      scanLen_eq_length (le_refl 1) h4, testBlock_length]
  have hfin : stripLoop (pre ++ testBlock mid mid2 body) 0 []
      = (pre, (pre ++ testBlock mid mid2 body).length) := by
    rw [stripLoop_to_scan pre mid mid2 body h1 h2 h3, hscan,
      stripLoop_base pre (lt_irrefl _)]
  refine ⟨hfin, ?_⟩
  rw [strip_rust_tests_eq_fst, hfin]

/-- Witness for C10: a never-rebalancing test module swallows everything
from the marker to the end of input. -/
theorem strip_rust_tests_unbalanced_consumes_all_witness :
    stripLoop ("fn a()\n".data ++ testBlock " ".data " ".data " fn t() \x7b ".data) 0 []
        = ("fn a()\n".data,
          ("fn a()\n".data ++ testBlock " ".data " ".data " fn t() \x7b ".data).length) ∧
    strip_rust_tests ("fn a()\n".data ++ testBlock " ".data " ".data " fn t() \x7b ".data)
        = "fn a()\n".data :=
  strip_rust_tests_unbalanced_consumes_all "fn a()\n".data " ".data " ".data
    " fn t() \x7b ".data (by decide) (by decide) (by decide) (by decide)

/-- C8 counterexample: for content that does not end with a newline the
closing fence is appended directly after the last content byte — the
output does not contain the closing fence on its own line (it lacks the
newline-fronted fence suffix), contradicting the claimed shape. -/
theorem fence_glued_without_trailing_newline :
    process_file fsNoNl ["a.txt"] false
      = some ("a.txt", "```txt\n// a.txt\nabc```\n\n") ∧
    strEnds "```txt\n// a.txt\nabc```\n\n" ("\n" ++ "```" ++ "\n" ++ "\n") = false ∧
    strEnds "abc" "\n" = false :=
  ⟨rfl, by decide, by decide⟩

/-- C8 (amended): for every readable file the formatter's output is
exactly the opening fence line with the language tag, the header comment
line with the display path, the (possibly test-stripped) content, then
the closing fence and a blank line appended directly; the closing fence
begins its own line exactly when that content is empty or ends with a
newline. -/
theorem process_file_output_shape (fs : FS) (p : FilePath) (ig : Bool) (c : String)
    (h : fs.read p = some c) :
    process_file fs p ig = some (pathStr p,
      "```" ++ determine_language p ++ "\n" ++ headerLine p
        ++ embeddedContent p ig c ++ "```" ++ "\n" ++ "\n") ∧
    (strEnds ("```" ++ determine_language p ++ "\n" ++ headerLine p
        ++ embeddedContent p ig c ++ "```" ++ "\n" ++ "\n")
        ("\n" ++ "```" ++ "\n" ++ "\n") = true
      ↔ (embeddedContent p ig c = ""
          ∨ strEnds (embeddedContent p ig c) "\n" = true)) := by
  have hnl : "\n".data = ['\n'] := rfl
  have hhdr : ∃ x, (headerLine p).data = x ++ ['\n'] := by
    rcases hcs : comment_syntax (determine_language p) with ⟨st, e⟩
    cases e with
    | none =>
      refine ⟨(st ++ " " ++ pathStr p).data, ?_⟩
      simp only [headerLine, hcs]
      simp [String.data_append, hnl]
    | some e2 =>
      refine ⟨(st ++ " " ++ pathStr p ++ " " ++ e2).data, ?_⟩
      simp only [headerLine, hcs]
      simp [String.data_append, hnl]
  constructor
  · unfold process_file headerLine embeddedContent
    rw [h]
  · obtain ⟨x, hx⟩ := hhdr
    rw [strEnds, strEnds, List.isSuffixOf_iff_suffix, List.isSuffixOf_iff_suffix]
    have hS : ("```" ++ determine_language p ++ "\n" ++ headerLine p
        ++ embeddedContent p ig c ++ "```" ++ "\n" ++ "\n").data
        = ((("```".data ++ (determine_language p).data ++ ['\n'] ++ x) ++ ['\n'])
            ++ (embeddedContent p ig c).data)
          ++ ("```".data ++ ['\n'] ++ ['\n']) := by
      simp [String.data_append, hx, hnl, List.append_assoc]
    have hpat : ("\n" ++ "```" ++ "\n" ++ "\n").data
        = '\n' :: ("```".data ++ ['\n'] ++ ['\n']) := by
      simp [String.data_append, hnl]
    rw [hS, hpat, suffix_newline_iff]
    have h0 : ("" : String).data = ([] : List Char) := rfl
    constructor
    · rintro (he | hsuf)
      · exact Or.inl (String.ext (by rw [he, h0]))
      · exact Or.inr hsuf
    · rintro (he | hsuf)
      · exact Or.inl (by rw [he, h0])
      · exact Or.inr hsuf

/-- Witness for C8: the amended shape at a concrete readable file. -/
theorem process_file_output_shape_witness :
    process_file fsTwo ["a.txt"] false = some (pathStr ["a.txt"],
      "```" ++ determine_language ["a.txt"] ++ "\n" ++ headerLine ["a.txt"]
        ++ embeddedContent ["a.txt"] false "alpha\n" ++ "```" ++ "\n" ++ "\n") ∧
    (strEnds ("```" ++ determine_language ["a.txt"] ++ "\n" ++ headerLine ["a.txt"]
        ++ embeddedContent ["a.txt"] false "alpha\n" ++ "```" ++ "\n" ++ "\n")
        ("\n" ++ "```" ++ "\n" ++ "\n") = true
      ↔ (embeddedContent ["a.txt"] false "alpha\n" = ""
          ∨ strEnds (embeddedContent ["a.txt"] false "alpha\n") "\n" = true)) :=
  process_file_output_shape fsTwo ["a.txt"] false "alpha\n" (by decide)

/-- Witness for C4: reversing the collected results of a two-file
rendering leaves the concatenated output unchanged. -/
theorem parallel_output_invariant_witness :
    concatChunks ((renderOutputs fsTwo false [["a.txt"], ["b.txt"]]).reverse)
      = concatChunks (renderOutputs fsTwo false [["a.txt"], ["b.txt"]]) :=
  parallel_output_invariant fsTwo false [["a.txt"], ["b.txt"]]
    ((renderOutputs fsTwo false [["a.txt"], ["b.txt"]]).reverse)
    (List.reverse_perm _) (by decide)

end CreateContext
